import Mathlib

/-!
A verification development for the schema-conversion core of the
`haskell` extension (`src/haskell.rs`): the flat dotted-key schema is
turned into a nested tree by `convert_to_zed_schema` /
`insert_nested_property`, and each leaf descriptor is rewritten by
`convert_leaf_schema`.  JSON values are embedded as an inductive type;
`serde_json::Map` is embedded as an association list whose `insert`
replaces the first occurrence of the key in place (and otherwise
appends), which models the map faithfully for key presence and lookup.
-/

set_option autoImplicit false

namespace HaskellSchema

/-- JSON-like values (`serde_json::Value`); objects are association lists. -/
inductive Json where
  | null : Json
  | bool : Bool → Json
  | num : Int → Json
  | str : String → Json
  | arr : List Json → Json
  | obj : List (String × Json) → Json
deriving Repr

/-- `Map::get`: first entry with the given key. -/
def getAL : List (String × Json) → String → Option Json
  | [], _ => none
  | (k, v) :: rest, key => if k = key then some v else getAL rest key

/-- `Map::insert`: replace the first occurrence of the key in place,
otherwise append the new entry at the end. -/
def insertAL : List (String × Json) → String → Json → List (String × Json)
  | [], key, v => [(key, v)]
  | (k, w) :: rest, key, v =>
    if k = key then (k, v) :: rest else (k, w) :: insertAL rest key v

/-- Whether the map has an entry with the given key. -/
def containsKey (m : List (String × Json)) (k : String) : Bool :=
  m.any (fun kv => kv.1 = k)

/-- Whether the value is an object (`Value::as_object` succeeds). -/
def Json.isObjB : Json → Bool
  | .obj _ => true
  | _ => false

/-- One iteration of the field-copy loop of `convert_leaf_schema`: the
recognized metadata fields and any unrecognized field are copied through
verbatim; `scope` and `description` are dropped. -/
def convLoopStep (acc : List (String × Json)) (k : String) (v : Json) :
    List (String × Json) :=
  if k = "default" ∨ k = "type" ∨ k = "enum" ∨ k = "enumDescriptions" ∨
      k = "items" ∨ k = "minimum" ∨ k = "maximum" ∨ k = "anyOf" then
    insertAL acc k v
  else if k = "scope" ∨ k = "description" then
    acc
  else
    insertAL acc k v

/-- The first two steps of `convert_leaf_schema` on an object-shaped
leaf: start from an empty result, emit `description` under
`markdownDescription`, then let an explicit `markdownDescription`
overwrite it. -/
def descrInit (leaf_obj : List (String × Json)) : List (String × Json) :=
  let r0 : List (String × Json) := []
  let r1 := match getAL leaf_obj "description" with
    | some desc => insertAL r0 "markdownDescription" desc
    | none => r0
  match getAL leaf_obj "markdownDescription" with
  | some desc => insertAL r1 "markdownDescription" desc
  | none => r1

/-- Body of `convert_leaf_schema` on an object-shaped leaf: remap
`description` to `markdownDescription` (an explicit `markdownDescription`
wins), then run the field-copy loop over all fields. -/
def convert_leaf_fields (leaf_obj : List (String × Json)) : List (String × Json) :=
  leaf_obj.foldl (fun acc kv => convLoopStep acc kv.1 kv.2) (descrInit leaf_obj)

/-- `convert_leaf_schema`: non-object leaves pass through unchanged. -/
def convert_leaf_schema (leaf_value : Json) : Json :=
  match leaf_value with
  | .obj leaf_obj => .obj (convert_leaf_fields leaf_obj)
  | v => v

/-- The fresh intermediate container `{"type": "object", "properties": pm}`
installed by `entry(key).or_insert_with`. -/
def mkContainer (pm : List (String × Json)) : Json :=
  .obj [("type", .str "object"), ("properties", .obj pm)]

/-- `insert_nested_property`: walk/create the path of container nodes in
the properties map and store the normalized leaf at the last segment. -/
def insert_nested_property :
    List (String × Json) → List String → Json → List (String × Json)
  | properties, [], _ => properties
  | properties, [key], leaf_value =>
    insertAL properties key (convert_leaf_schema leaf_value)
  | properties, key :: next :: more, leaf_value =>
    match getAL properties key with
    | none =>
      -- `entry(key).or_insert_with` installs a fresh container whose
      -- `properties` is an empty object, then the code descends into it
      insertAL properties key
        (mkContainer (insert_nested_property [] (next :: more) leaf_value))
    | some entry =>
      match entry with
      | .obj o =>
        match getAL o "properties" with
        | none =>
          -- `o.entry("properties").or_insert_with(json!({}))` then descend
          insertAL properties key
            (.obj (insertAL o "properties"
              (.obj (insert_nested_property [] (next :: more) leaf_value))))
        | some props =>
          match props with
          | .obj props_map =>
            insertAL properties key
              (.obj (insertAL o "properties"
                (.obj (insert_nested_property props_map (next :: more) leaf_value))))
          | _ => properties  -- `props.as_object_mut()` fails: recursion skipped
      | _ => properties  -- `entry.as_object_mut()` fails: nothing happens

/-- Helper of `splitDot`: the accumulator holds the current segment's
characters in reverse. -/
def splitDotAux : List Char → List Char → List String
  | acc, [] => [String.mk acc.reverse]
  | acc, c :: cs =>
    if c = '.' then String.mk acc.reverse :: splitDotAux [] cs
    else splitDotAux (c :: acc) cs

/-- `key.split('.').collect()`: split a string at every `'.'`, keeping
empty segments; the result is never empty. -/
def splitDot (s : String) : List String :=
  splitDotAux [] s.data

/-- One iteration of the key loop of `convert_to_zed_schema`: split the
key on `.`, drop the root-prefix segment, skip if nothing remains, else
insert the leaf at the remaining path. -/
def buildStep (root_properties : List (String × Json)) (kv : String × Json) :
    List (String × Json) :=
  match splitDot kv.1 with
  | [] => root_properties
  | _ :: rest =>
    match rest with
    | [] => root_properties
    | _ => insert_nested_property root_properties rest kv.2

/-- The fold of `convert_to_zed_schema` over all entries of the flat map. -/
def buildRootProperties (schema_map : List (String × Json)) :
    List (String × Json) :=
  schema_map.foldl buildStep []

/-- `convert_to_zed_schema`: a non-object input is returned unchanged
(cloned); an object input is rebuilt as `{type: object, properties: tree}`. -/
def convert_to_zed_schema (raw_schema : Json) : Json :=
  match raw_schema with
  | .obj schema_map =>
    .obj [("type", .str "object"),
          ("properties", .obj (buildRootProperties schema_map))]
  | v => v

/-! ### Observation functions for stating the claims -/

/-- The remaining path of a flat key: its dot-segments with the first
(root-prefix) segment dropped; `none` when the builder skips the key. -/
def remainingPath (key : String) : Option (List String) :=
  match splitDot key with
  | [] => none
  | _ :: rest =>
    match rest with
    | [] => none
    | _ => some rest

/-- The full dotted paths present in a flat input, in processing order. -/
def inputPaths (schema_map : List (String × Json)) : List (List String) :=
  schema_map.filterMap (fun kv => remainingPath kv.1)

/-- A node is container-shaped when it is exactly the object the builder
creates for intermediate segments: `{type: "object", properties: <obj>}`;
returns its children map. -/
def containerProps : Json → Option (List (String × Json))
  | .obj [("type", .str "object"), ("properties", .obj m)] => some m
  | _ => none

theorem containerProps_eq_some {v : Json} {m : List (String × Json)}
    (h : containerProps v = some m) :
    v = .obj [("type", .str "object"), ("properties", .obj m)] := by
  unfold containerProps at h
  split at h
  · simp_all
  · simp at h

mutual
/-- The paths from a properties map down to each leaf: a child that is
container-shaped is walked through, any other child is a leaf. -/
def leafPathsOf : List (String × Json) → List (List String)
  | [] => []
  | (k, v) :: rest => leafEntryPaths k v ++ leafPathsOf rest

/-- The contribution of a single entry to `leafPathsOf`. -/
def leafEntryPaths : String → Json → List (List String)
  | k, .obj [("type", .str "object"), ("properties", .obj m)] =>
    (leafPathsOf m).map (fun q => k :: q)
  | k, _ => [[k]]
end

theorem leafEntryPaths_container {v : Json} {pm : List (String × Json)}
    (k : String) (h : containerProps v = some pm) :
    leafEntryPaths k v = (leafPathsOf pm).map (fun q => k :: q) := by
  have hv := containerProps_eq_some h
  subst hv
  rfl

theorem leafEntryPaths_leaf {v : Json} (k : String)
    (h : containerProps v = none) : leafEntryPaths k v = [[k]] := by
  unfold leafEntryPaths
  split
  · simp [containerProps] at h
  · rfl

/-- Whether the slot at a path, walked through container-shaped nodes
only, is itself a container (the empty path is the root container). -/
def containerAtB : List (String × Json) → List String → Bool
  | _, [] => true
  | m, s :: rest =>
    match getAL m s with
    | some v =>
      match containerProps v with
      | some pm => containerAtB pm rest
      | none => false
    | none => false

mutual
/-- Well-formedness of a tree: at every level reachable through
container-shaped nodes the keys are distinct. -/
def wfKeysB : List (String × Json) → Bool
  | [] => true
  | (k, v) :: rest => !containsKey rest k && wfEntryB v && wfKeysB rest

/-- Well-formedness of a single entry's value. -/
def wfEntryB : Json → Bool
  | .obj [("type", .str "object"), ("properties", .obj m)] => wfKeysB m
  | _ => true
end

theorem wfEntryB_container {v : Json} {pm : List (String × Json)}
    (h : containerProps v = some pm) : wfEntryB v = wfKeysB pm := by
  have hv := containerProps_eq_some h
  subst hv
  rfl

theorem wfEntryB_leaf {v : Json} (h : containerProps v = none) :
    wfEntryB v = true := by
  unfold wfEntryB
  split
  · simp [containerProps] at h
  · rfl

/-- `propPre p q` holds when `p` is a proper (strict) leading segment
sequence of `q`. -/
def propPre : List String → List String → Bool
  | [], [] => false
  | [], _ :: _ => true
  | _ :: _, [] => false
  | a :: as, b :: bs => a = b && propPre as bs

/-- Two paths are separated when neither is a proper leading part of the
other. -/
def sepOkB (p q : List String) : Bool :=
  !propPre p q && !propPre q p

/-- All paths in the list are pairwise separated. -/
def pathsOkB : List (List String) → Bool
  | [] => true
  | p :: ps => ps.all (sepOkB p) && pathsOkB ps

/-- No flat entry's value normalizes to a container-shaped object. -/
def leavesOkB (schema_map : List (String × Json)) : Bool :=
  schema_map.all (fun kv => (containerProps (convert_leaf_schema kv.2)).isNone)

/-- The keys of the map are pairwise distinct (the `serde_json::Map`
invariant, which an association list does not carry by itself). -/
def noDupKeys : List (String × Json) → Bool
  | [] => true
  | (k, _) :: rest => !containsKey rest k && noDupKeys rest

/-! ### Association-list lemmas -/

@[simp] theorem containsKey_nil (k : String) : containsKey [] k = false := rfl

@[simp] theorem containsKey_cons (a : String) (w : Json)
    (rest : List (String × Json)) (k : String) :
    containsKey ((a, w) :: rest) k = (a = k || containsKey rest k) := by
  simp [containsKey]

theorem containsKey_append (m₁ m₂ : List (String × Json)) (k : String) :
    containsKey (m₁ ++ m₂) k = (containsKey m₁ k || containsKey m₂ k) := by
  simp [containsKey, List.any_append]

theorem insertAL_cons (x : String) (w : Json) (rest : List (String × Json))
    (k : String) (v : Json) :
    insertAL ((x, w) :: rest) k v =
      if x = k then (x, v) :: rest else (x, w) :: insertAL rest k v := rfl

theorem mem_containsKey {m : List (String × Json)} {k : String} {v : Json}
    (h : (k, v) ∈ m) : containsKey m k = true := by
  induction m with
  | nil => simp at h
  | cons kv rest ih =>
    rcases kv with ⟨a, w⟩
    simp only [List.mem_cons, Prod.mk.injEq] at h
    rcases h with ⟨rfl, rfl⟩ | h
    · simp
    · simp [ih h]

theorem getAL_eq_none {m : List (String × Json)} {k : String} :
    getAL m k = none ↔ containsKey m k = false := by
  induction m with
  | nil => simp [getAL]
  | cons kv rest ih =>
    rcases kv with ⟨a, w⟩
    by_cases h : a = k <;> simp [getAL, h, ih]

theorem getAL_isSome {m : List (String × Json)} {k : String} :
    (getAL m k).isSome = containsKey m k := by
  induction m with
  | nil => simp [getAL]
  | cons kv rest ih =>
    rcases kv with ⟨a, w⟩
    by_cases h : a = k <;> simp [getAL, h, ih]

theorem getAL_some_mem {m : List (String × Json)} {k : String} {v : Json}
    (h : getAL m k = some v) : (k, v) ∈ m := by
  induction m with
  | nil => simp [getAL] at h
  | cons kv rest ih =>
    rcases kv with ⟨a, w⟩
    by_cases ha : a = k
    · subst ha
      simp [getAL] at h
      simp [h]
    · simp [getAL, ha] at h
      exact List.mem_cons_of_mem _ (ih h)

theorem getAL_insertAL_self (m : List (String × Json)) (k : String) (v : Json) :
    getAL (insertAL m k v) k = some v := by
  induction m with
  | nil => simp [insertAL, getAL]
  | cons kv rest ih =>
    rcases kv with ⟨a, w⟩
    by_cases h : a = k <;> simp [insertAL, getAL, h, ih]

theorem getAL_insertAL_ne (m : List (String × Json)) (k k' : String) (v : Json)
    (h : k ≠ k') : getAL (insertAL m k v) k' = getAL m k' := by
  induction m with
  | nil => simp [insertAL, getAL, h]
  | cons kv rest ih =>
    rcases kv with ⟨a, w⟩
    by_cases ha : a = k
    · subst ha
      simp [insertAL, getAL, h]
    · simp [insertAL, ha, getAL, ih]

theorem insertAL_insertAL (m : List (String × Json)) (k : String) (a b : Json) :
    insertAL (insertAL m k a) k b = insertAL m k b := by
  induction m with
  | nil => simp [insertAL]
  | cons kv rest ih =>
    rcases kv with ⟨x, w⟩
    by_cases h : x = k <;> simp [insertAL, h, ih]

theorem insertAL_of_not_contains {m : List (String × Json)} {k : String}
    (v : Json) (h : containsKey m k = false) : insertAL m k v = m ++ [(k, v)] := by
  induction m with
  | nil => simp [insertAL]
  | cons kv rest ih =>
    rcases kv with ⟨a, w⟩
    simp at h
    simp [insertAL, h.1, ih h.2]

theorem containsKey_insertAL (m : List (String × Json)) (k k' : String) (v : Json) :
    containsKey (insertAL m k v) k' = (containsKey m k' || k = k') := by
  induction m with
  | nil => simp [insertAL]
  | cons kv rest ih =>
    rcases kv with ⟨a, w⟩
    by_cases h : a = k
    · subst h
      by_cases h' : a = k' <;> simp [insertAL, h', Bool.or_comm]
    · simp [insertAL, h, ih, Bool.or_assoc]

theorem noDupKeys_insertAL {m : List (String × Json)} (k : String) (v : Json)
    (h : noDupKeys m = true) : noDupKeys (insertAL m k v) = true := by
  induction m with
  | nil => simp [insertAL, noDupKeys]
  | cons kv rest ih =>
    rcases kv with ⟨a, w⟩
    simp [noDupKeys] at h
    by_cases ha : a = k
    · subst ha
      simp [insertAL, noDupKeys, h.1, h.2]
    · simp [insertAL, ha, noDupKeys, containsKey_insertAL, h.1, ih h.2]
      intro hk
      exact absurd hk.symm ha

/-! ### Lemmas about the leaf normalizer -/

/-- The field-copy loop drops exactly `scope` and `description` and
copies every other field through. -/
theorem convLoopStep_eq (acc : List (String × Json)) (k : String) (v : Json) :
    convLoopStep acc k v =
      if k = "scope" ∨ k = "description" then acc else insertAL acc k v := by
  by_cases hd : k = "scope" ∨ k = "description"
  · have hA : ¬(k = "default" ∨ k = "type" ∨ k = "enum" ∨ k = "enumDescriptions" ∨
        k = "items" ∨ k = "minimum" ∨ k = "maximum" ∨ k = "anyOf") := by
      rcases hd with rfl | rfl <;> simp
    unfold convLoopStep
    rw [if_neg hA, if_pos hd]
  · unfold convLoopStep
    rw [if_neg hd]
    split_ifs <;> rfl

theorem foldConv_containsKey (l : List (String × Json)) (acc : List (String × Json))
    (k : String) :
    containsKey (List.foldl (fun acc kv => convLoopStep acc kv.1 kv.2) acc l) k = true ↔
      (containsKey acc k = true ∨
        (¬(k = "scope" ∨ k = "description") ∧ containsKey l k = true)) := by
  induction l generalizing acc with
  | nil => simp
  | cons kv rest ih =>
    rcases kv with ⟨a, w⟩
    simp only [List.foldl_cons]
    rw [ih, convLoopStep_eq]
    by_cases hd : a = "scope" ∨ a = "description" <;> by_cases hak : a = k
    · subst hak
      rw [if_pos hd]
      rcases hd with h | h <;> subst h <;> simp
    · rw [if_pos hd]
      simp [hak]
    · subst hak
      rw [if_neg hd]
      simp [containsKey_insertAL, hd]
    · rw [if_neg hd]
      simp [containsKey_insertAL, hak]

theorem foldConv_getAL_of_not_contains (l : List (String × Json))
    (acc : List (String × Json)) (k : String) (h : containsKey l k = false) :
    getAL (List.foldl (fun acc kv => convLoopStep acc kv.1 kv.2) acc l) k =
      getAL acc k := by
  induction l generalizing acc with
  | nil => simp
  | cons kv rest ih =>
    rcases kv with ⟨a, w⟩
    simp at h
    simp only [List.foldl_cons]
    rw [ih _ h.2, convLoopStep_eq]
    split_ifs with hd
    · rfl
    · exact getAL_insertAL_ne acc a k w h.1

theorem foldConv_getAL_mem (l : List (String × Json)) (acc : List (String × Json))
    (k : String) (v : Json) (hs : ¬(k = "scope" ∨ k = "description"))
    (hnd : noDupKeys l = true) (hmem : (k, v) ∈ l) :
    getAL (List.foldl (fun acc kv => convLoopStep acc kv.1 kv.2) acc l) k =
      some v := by
  induction l generalizing acc with
  | nil => simp at hmem
  | cons kv rest ih =>
    rcases kv with ⟨a, w⟩
    simp [noDupKeys] at hnd
    simp only [List.mem_cons, Prod.mk.injEq] at hmem
    simp only [List.foldl_cons]
    rcases hmem with ⟨rfl, rfl⟩ | hmem
    · rw [foldConv_getAL_of_not_contains _ _ _ hnd.1, convLoopStep_eq, if_neg hs]
      exact getAL_insertAL_self acc k v
    · exact ih _ hnd.2 hmem

theorem foldConv_fresh (l : List (String × Json)) (acc : List (String × Json))
    (hnd : noDupKeys l = true)
    (hfree : ∀ a w, (a, w) ∈ l →
      ¬(a = "scope" ∨ a = "description") ∧ containsKey acc a = false) :
    List.foldl (fun acc kv => convLoopStep acc kv.1 kv.2) acc l = acc ++ l := by
  induction l generalizing acc with
  | nil => simp
  | cons kv rest ih =>
    rcases kv with ⟨a, w⟩
    simp [noDupKeys] at hnd
    have hhead := hfree a w (List.mem_cons_self _ _)
    simp only [List.foldl_cons]
    rw [convLoopStep_eq, if_neg hhead.1, insertAL_of_not_contains w hhead.2]
    have hside : ∀ a' w', (a', w') ∈ rest →
        ¬(a' = "scope" ∨ a' = "description") ∧
          containsKey (acc ++ [(a, w)]) a' = false := by
      intro a' w' hm
      refine ⟨(hfree a' w' (List.mem_cons_of_mem _ hm)).1, ?_⟩
      have h1 := (hfree a' w' (List.mem_cons_of_mem _ hm)).2
      have h2 : a' ≠ a := by
        intro hcon
        subst hcon
        exact absurd (mem_containsKey hm) (by simp [hnd.1])
      rw [containsKey_append]
      simp [h1, Ne.symm h2]
    rw [ih _ hnd.2 hside]
    simp

theorem foldConv_noDupKeys (l : List (String × Json)) (acc : List (String × Json))
    (h : noDupKeys acc = true) :
    noDupKeys (List.foldl (fun acc kv => convLoopStep acc kv.1 kv.2) acc l) = true := by
  induction l generalizing acc with
  | nil => simpa
  | cons kv rest ih =>
    simp only [List.foldl_cons]
    refine ih _ ?_
    rw [convLoopStep_eq]
    split_ifs
    · exact h
    · exact noDupKeys_insertAL _ _ h

theorem foldConv_head (l : List (String × Json)) (k0 : String) (w0 : Json)
    (accT : List (String × Json)) :
    ∃ w t, List.foldl (fun acc kv => convLoopStep acc kv.1 kv.2)
      ((k0, w0) :: accT) l = (k0, w) :: t := by
  induction l generalizing w0 accT with
  | nil => exact ⟨w0, accT, rfl⟩
  | cons kv rest ih =>
    rcases kv with ⟨a, v⟩
    simp only [List.foldl_cons]
    rw [convLoopStep_eq]
    split_ifs with hd
    · exact ih w0 accT
    · rw [insertAL_cons]
      split_ifs with hk
      · exact ih v accT
      · exact ih w0 (insertAL accT a v)

theorem descrInit_of_mdd {l : List (String × Json)} {z : Json}
    (h : getAL l "markdownDescription" = some z) :
    descrInit l = [("markdownDescription", z)] := by
  unfold descrInit
  rw [h]
  cases hd : getAL l "description" <;> simp [insertAL]

theorem descrInit_of_desc {l : List (String × Json)} {d : Json}
    (hm : getAL l "markdownDescription" = none)
    (h : getAL l "description" = some d) :
    descrInit l = [("markdownDescription", d)] := by
  unfold descrInit
  rw [hm, h]
  simp [insertAL]

theorem descrInit_of_none {l : List (String × Json)}
    (hm : getAL l "markdownDescription" = none)
    (h : getAL l "description" = none) :
    descrInit l = [] := by
  unfold descrInit
  rw [hm, h]

theorem containsKey_descrInit {l : List (String × Json)} {k : String}
    (h : containsKey (descrInit l) k = true) : k = "markdownDescription" := by
  cases hm : getAL l "markdownDescription" with
  | some z =>
    rw [descrInit_of_mdd hm] at h
    simp at h
    exact h.symm
  | none =>
    cases hd : getAL l "description" with
    | some d =>
      rw [descrInit_of_desc hm hd] at h
      simp at h
      exact h.symm
    | none =>
      rw [descrInit_of_none hm hd] at h
      simp at h

theorem noDupKeys_descrInit (l : List (String × Json)) :
    noDupKeys (descrInit l) = true := by
  cases hm : getAL l "markdownDescription" with
  | some z => rw [descrInit_of_mdd hm]; rfl
  | none =>
    cases hd : getAL l "description" with
    | some d => rw [descrInit_of_desc hm hd]; rfl
    | none => rw [descrInit_of_none hm hd]; rfl

theorem containsKey_descrInit_mdd (l : List (String × Json)) :
    containsKey (descrInit l) "markdownDescription" =
      (containsKey l "description" || containsKey l "markdownDescription") := by
  cases hm : getAL l "markdownDescription" with
  | some z =>
    have hc : containsKey l "markdownDescription" = true := by
      have := getAL_isSome (m := l) (k := "markdownDescription")
      rw [hm] at this
      simpa using this.symm
    rw [descrInit_of_mdd hm, hc]
    simp
  | none =>
    have hc : containsKey l "markdownDescription" = false := getAL_eq_none.mp hm
    cases hd : getAL l "description" with
    | some d =>
      have hc' : containsKey l "description" = true := by
        have := getAL_isSome (m := l) (k := "description")
        rw [hd] at this
        simpa using this.symm
      rw [descrInit_of_desc hm hd, hc, hc']
      simp
    | none =>
      have hc' : containsKey l "description" = false := getAL_eq_none.mp hd
      rw [descrInit_of_none hm hd, hc, hc']
      rfl

/-- The normalized leaf never keeps a `scope` or `description` key. -/
theorem convert_leaf_fields_not_dropped (fields : List (String × Json))
    (k : String) (hk : k = "scope" ∨ k = "description") :
    containsKey (convert_leaf_fields fields) k = false := by
  by_contra h
  rw [Bool.not_eq_false] at h
  unfold convert_leaf_fields at h
  rcases (foldConv_containsKey _ _ _).mp h with h1 | h2
  · have := containsKey_descrInit h1
    rcases hk with rfl | rfl <;> simp at this
  · exact h2.1 hk

/-- The normalized leaf has `markdownDescription` exactly when the input
had `description` or `markdownDescription`. -/
theorem convert_leaf_fields_mdd (fields : List (String × Json)) :
    containsKey (convert_leaf_fields fields) "markdownDescription" =
      (containsKey fields "description" || containsKey fields "markdownDescription") := by
  rw [Bool.eq_iff_iff]
  unfold convert_leaf_fields
  rw [foldConv_containsKey, containsKey_descrInit_mdd]
  simp


theorem noDupKeys_convert_leaf_fields (fields : List (String × Json)) :
    noDupKeys (convert_leaf_fields fields) = true :=
  foldConv_noDupKeys _ _ (noDupKeys_descrInit _)

/-- Every key surviving in a normalized leaf is neither `scope` nor
`description`. -/
theorem convert_leaf_fields_mem_free (fields : List (String × Json)) :
    ∀ a w, (a, w) ∈ convert_leaf_fields fields →
      ¬(a = "scope" ∨ a = "description") := by
  intro a w hm hk
  have hc := mem_containsKey hm
  rw [convert_leaf_fields_not_dropped fields a hk] at hc
  exact absurd hc (by simp)

/-- When the first pass produced a `markdownDescription`-headed map, the
second pass reproduces it unchanged. -/
theorem convert_leaf_fields_second_headed (fields : List (String × Json))
    (z : Json) (hstruct : descrInit fields = [("markdownDescription", z)]) :
    convert_leaf_fields (convert_leaf_fields fields) = convert_leaf_fields fields := by
  have hnd : noDupKeys (convert_leaf_fields fields) = true :=
    noDupKeys_convert_leaf_fields fields
  have hfreeR := convert_leaf_fields_mem_free fields
  obtain ⟨w, t, hwt⟩ : ∃ w t,
      convert_leaf_fields fields = ("markdownDescription", w) :: t := by
    unfold convert_leaf_fields
    rw [hstruct]
    exact foldConv_head fields _ _ _
  rw [hwt] at hnd hfreeR ⊢
  simp [noDupKeys] at hnd
  show convert_leaf_fields (("markdownDescription", w) :: t) =
    ("markdownDescription", w) :: t
  unfold convert_leaf_fields
  rw [descrInit_of_mdd (show getAL (("markdownDescription", w) :: t)
    "markdownDescription" = some w from by simp [getAL])]
  simp only [List.foldl_cons]
  rw [convLoopStep_eq, if_neg (by simp), insertAL_cons, if_pos rfl]
  have hside : ∀ a' w', (a', w') ∈ t →
      ¬(a' = "scope" ∨ a' = "description") ∧
        containsKey [("markdownDescription", w)] a' = false := by
    intro a' w' hmem
    refine ⟨hfreeR a' w' (List.mem_cons_of_mem _ hmem), ?_⟩
    have hne : a' ≠ "markdownDescription" := by
      intro hcon
      subst hcon
      exact absurd (mem_containsKey hmem) (by simp [hnd.1])
    simp [Ne.symm hne]
  rw [foldConv_fresh _ _ hnd.2 hside]
  simp

/-- The normalized map of an object-shaped leaf is idempotent under a
second normalization. -/
theorem convert_leaf_fields_idem (fields : List (String × Json)) :
    convert_leaf_fields (convert_leaf_fields fields) = convert_leaf_fields fields := by
  cases hm : getAL fields "markdownDescription" with
  | some z => exact convert_leaf_fields_second_headed fields z (descrInit_of_mdd hm)
  | none =>
    cases hd : getAL fields "description" with
    | some d =>
      exact convert_leaf_fields_second_headed fields d (descrInit_of_desc hm hd)
    | none =>
      -- no description at all: the second pass starts empty and copies
      -- every field of the already clean map
      have hnd : noDupKeys (convert_leaf_fields fields) = true :=
        noDupKeys_convert_leaf_fields fields
      have hmdd : containsKey (convert_leaf_fields fields) "markdownDescription" = false := by
        rw [convert_leaf_fields_mdd, getAL_eq_none.mp hm, getAL_eq_none.mp hd]
        rfl
      have hdesc : containsKey (convert_leaf_fields fields) "description" = false :=
        convert_leaf_fields_not_dropped fields _ (Or.inr rfl)
      have hside : ∀ a w, (a, w) ∈ convert_leaf_fields fields →
          ¬(a = "scope" ∨ a = "description") ∧
            containsKey ([] : List (String × Json)) a = false := by
        intro a w hmem
        exact ⟨convert_leaf_fields_mem_free fields a w hmem, rfl⟩
      conv in convert_leaf_fields (convert_leaf_fields fields) =>
        rw [convert_leaf_fields]
      rw [descrInit_of_none (getAL_eq_none.mpr hmdd) (getAL_eq_none.mpr hdesc)]
      rw [foldConv_fresh _ _ hnd hside]
      simp

theorem getAL_append_of_not_contains {m : List (String × Json)} {k : String}
    (l : List (String × Json)) (h : containsKey m k = false) :
    getAL (m ++ l) k = getAL l k := by
  induction m with
  | nil => simp
  | cons kv rest ih =>
    rcases kv with ⟨a, w⟩
    simp at h
    simp [getAL, h.1, ih h.2]

/-! ### Claims about the leaf normalizer -/

/-- C3: for an object-shaped leaf in which both `description` and
`markdownDescription` are present (with possibly different values), the
normalized output's `markdownDescription` equals the input's
`markdownDescription` value, not the input's `description` value. -/
theorem c3_markdownDescription_wins (fields : List (String × Json)) (d md : Json)
    (hnd : noDupKeys fields = true)
    (hd : getAL fields "description" = some d)
    (hm : getAL fields "markdownDescription" = some md) :
    getAL (convert_leaf_fields fields) "markdownDescription" = some md := by
  unfold convert_leaf_fields
  exact foldConv_getAL_mem fields _ _ _ (by simp) hnd (getAL_some_mem hm)

/-- Witness for C3 at a concrete leaf with differing `description` and
`markdownDescription`. -/
theorem c3_markdownDescription_wins_witness :
    noDupKeys [("description", Json.str "a"), ("markdownDescription", Json.str "b")] = true ∧
    getAL [("description", Json.str "a"), ("markdownDescription", Json.str "b")]
      "description" = some (Json.str "a") ∧
    getAL [("description", Json.str "a"), ("markdownDescription", Json.str "b")]
      "markdownDescription" = some (Json.str "b") ∧
    getAL (convert_leaf_fields
      [("description", Json.str "a"), ("markdownDescription", Json.str "b")])
      "markdownDescription" = some (Json.str "b") :=
  ⟨rfl, rfl, rfl, c3_markdownDescription_wins _ _ _ rfl rfl rfl⟩

/-- C4: the normalized leaf never contains `description` or `scope`,
contains `markdownDescription` exactly when the input contained
`description` or `markdownDescription` (or both), and every other input
field appears in the output under its original name with its original
value. -/
theorem c4_leaf_field_policy (fields : List (String × Json))
    (hnd : noDupKeys fields = true) :
    getAL (convert_leaf_fields fields) "description" = none ∧
    getAL (convert_leaf_fields fields) "scope" = none ∧
    containsKey (convert_leaf_fields fields) "markdownDescription" =
      (containsKey fields "description" || containsKey fields "markdownDescription") ∧
    ∀ k v, (k, v) ∈ fields → k ≠ "description" → k ≠ "scope" →
      getAL (convert_leaf_fields fields) k = some v := by
  refine ⟨?_, ?_, convert_leaf_fields_mdd fields, ?_⟩
  · exact getAL_eq_none.mpr (convert_leaf_fields_not_dropped fields _ (Or.inr rfl))
  · exact getAL_eq_none.mpr (convert_leaf_fields_not_dropped fields _ (Or.inl rfl))
  · intro k v hm hk1 hk2
    unfold convert_leaf_fields
    refine foldConv_getAL_mem fields _ _ _ ?_ hnd hm
    simp [hk1, hk2]

/-- Witness for C4 at a concrete leaf with `description`, `scope` and an
unrecognized field. -/
theorem c4_leaf_field_policy_witness :
    noDupKeys [("description", Json.str "a"), ("scope", Json.str "resource"),
      ("x", Json.bool true)] = true ∧
    getAL (convert_leaf_fields [("description", Json.str "a"),
      ("scope", Json.str "resource"), ("x", Json.bool true)]) "description" = none ∧
    getAL (convert_leaf_fields [("description", Json.str "a"),
      ("scope", Json.str "resource"), ("x", Json.bool true)]) "scope" = none ∧
    getAL (convert_leaf_fields [("description", Json.str "a"),
      ("scope", Json.str "resource"), ("x", Json.bool true)]) "x" =
        some (Json.bool true) :=
  ⟨rfl,
    (c4_leaf_field_policy [("description", Json.str "a"),
      ("scope", Json.str "resource"), ("x", Json.bool true)] rfl).1,
    (c4_leaf_field_policy [("description", Json.str "a"),
      ("scope", Json.str "resource"), ("x", Json.bool true)] rfl).2.1,
    (c4_leaf_field_policy [("description", Json.str "a"),
      ("scope", Json.str "resource"), ("x", Json.bool true)] rfl).2.2.2
      "x" (Json.bool true) (by simp) (by simp) (by simp)⟩

/-- C5: the leaf normalizer is idempotent on every JSON-like value. -/
theorem c5_normalize_idempotent (v : Json) :
    convert_leaf_schema (convert_leaf_schema v) = convert_leaf_schema v := by
  cases v with
  | obj fields =>
    show Json.obj (convert_leaf_fields (convert_leaf_fields fields)) =
      Json.obj (convert_leaf_fields fields)
    rw [convert_leaf_fields_idem]
  | null => rfl
  | bool b => rfl
  | num n => rfl
  | str s => rfl
  | arr l => rfl

/-- C6: a top-level input that is not an object is returned unchanged. -/
theorem c6_non_object_input_identity (raw : Json)
    (h : Json.isObjB raw = false) : convert_to_zed_schema raw = raw := by
  cases raw with
  | obj m => simp [Json.isObjB] at h
  | null => rfl
  | bool b => rfl
  | num n => rfl
  | str s => rfl
  | arr l => rfl

/-- Witness for C6 at a concrete array input. -/
theorem c6_non_object_input_identity_witness :
    Json.isObjB (Json.arr [Json.num 1]) = false ∧
    convert_to_zed_schema (Json.arr [Json.num 1]) = Json.arr [Json.num 1] :=
  ⟨rfl, c6_non_object_input_identity _ rfl⟩

/-- C7: a non-object leaf is returned unchanged by the normalizer, and
missing expected fields merely produce absent output fields (no failure
path exists: both functions are total). -/
theorem c7_graceful_pass_through :
    (∀ leaf, Json.isObjB leaf = false → convert_leaf_schema leaf = leaf) ∧
    (∀ fields, containsKey fields "description" = false →
      containsKey fields "markdownDescription" = false →
      containsKey (convert_leaf_fields fields) "markdownDescription" = false) := by
  constructor
  · intro leaf h
    cases leaf with
    | obj m => simp [Json.isObjB] at h
    | null => rfl
    | bool b => rfl
    | num n => rfl
    | str s => rfl
    | arr l => rfl
  · intro fields h1 h2
    rw [convert_leaf_fields_mdd, h1, h2]
    rfl

/-- Witness for C7 at a concrete scalar leaf and a concrete leaf without
any description field. -/
theorem c7_graceful_pass_through_witness :
    convert_leaf_schema (Json.str "x") = Json.str "x" ∧
    containsKey (convert_leaf_fields [("default", Json.bool true)])
      "markdownDescription" = false :=
  ⟨c7_graceful_pass_through.1 _ rfl, c7_graceful_pass_through.2 _ rfl rfl⟩

/-! ### Step characterizations of `insert_nested_property` -/

theorem insertAL_append_last {m : List (String × Json)} {k : String}
    (a b : Json) (h : containsKey m k = false) :
    insertAL (m ++ [(k, a)]) k b = m ++ [(k, b)] := by
  induction m with
  | nil => simp [insertAL]
  | cons kv rest ih =>
    rcases kv with ⟨x, w⟩
    simp at h
    simp [insertAL, h.1, ih h.2]

theorem insert_nested_single (props : List (String × Json)) (s : String)
    (v : Json) :
    insert_nested_property props [s] v =
      insertAL props s (convert_leaf_schema v) := by
  simp [insert_nested_property]

theorem insert_nested_nil (props : List (String × Json)) (v : Json) :
    insert_nested_property props [] v = props := by
  simp [insert_nested_property]

theorem insert_nested_absent (props : List (String × Json)) (s r : String)
    (rs : List String) (v : Json) (hk : getAL props s = none) :
    insert_nested_property props (s :: r :: rs) v =
      insertAL props s (mkContainer (insert_nested_property [] (r :: rs) v)) := by
  simp [insert_nested_property, hk]

theorem insert_nested_obstructed (props : List (String × Json)) (s r : String)
    (rs : List String) (v entry : Json) (hk : getAL props s = some entry)
    (hne : Json.isObjB entry = false) :
    insert_nested_property props (s :: r :: rs) v = props := by
  cases entry with
  | obj o => simp [Json.isObjB] at hne
  | null => simp [insert_nested_property, hk]
  | bool b => simp [insert_nested_property, hk]
  | num n => simp [insert_nested_property, hk]
  | str t => simp [insert_nested_property, hk]
  | arr l => simp [insert_nested_property, hk]

theorem insert_nested_props_none (props : List (String × Json)) (s r : String)
    (rs : List String) (v : Json) (o : List (String × Json))
    (hk : getAL props s = some (.obj o)) (hp : getAL o "properties" = none) :
    insert_nested_property props (s :: r :: rs) v =
      insertAL props s (.obj (insertAL o "properties"
        (.obj (insert_nested_property [] (r :: rs) v)))) := by
  simp [insert_nested_property, hk, hp]

theorem insert_nested_props_obj (props : List (String × Json)) (s r : String)
    (rs : List String) (v : Json) (o pm : List (String × Json))
    (hk : getAL props s = some (.obj o))
    (hp : getAL o "properties" = some (.obj pm)) :
    insert_nested_property props (s :: r :: rs) v =
      insertAL props s (.obj (insertAL o "properties"
        (.obj (insert_nested_property pm (r :: rs) v)))) := by
  simp [insert_nested_property, hk, hp]

theorem insert_nested_props_nonobj (props : List (String × Json)) (s r : String)
    (rs : List String) (v : Json) (o : List (String × Json)) (pv : Json)
    (hk : getAL props s = some (.obj o)) (hp : getAL o "properties" = some pv)
    (hne : Json.isObjB pv = false) :
    insert_nested_property props (s :: r :: rs) v = props := by
  cases pv with
  | obj pm => simp [Json.isObjB] at hne
  | null => simp [insert_nested_property, hk, hp]
  | bool b => simp [insert_nested_property, hk, hp]
  | num n => simp [insert_nested_property, hk, hp]
  | str t => simp [insert_nested_property, hk, hp]
  | arr l => simp [insert_nested_property, hk, hp]

theorem insert_nested_into_container (props : List (String × Json)) (s r : String)
    (rs : List String) (v : Json) (pm : List (String × Json))
    (hk : getAL props s = some (mkContainer pm)) :
    insert_nested_property props (s :: r :: rs) v =
      insertAL props s (mkContainer (insert_nested_property pm (r :: rs) v)) := by
  rw [insert_nested_props_obj props s r rs v
    [("type", Json.str "object"), ("properties", Json.obj pm)] pm
    (by simpa [mkContainer] using hk) (by simp [getAL])]
  simp [mkContainer, insertAL]

/-! ### Claims about the tree builder's write behaviour -/

/-- C8: when the same remaining path is written twice, the second write
overwrites the first (last-write-wins) without error, and the value
stored at the final segment is the normalization of the later value. -/
theorem c8_last_write_wins :
    (∀ props p v1 v2,
      insert_nested_property (insert_nested_property props p v1) p v2 =
        insert_nested_property props p v2) ∧
    (∀ props s v, getAL (insert_nested_property props [s] v) s =
      some (convert_leaf_schema v)) := by
  constructor
  · intro props p v1 v2
    induction p generalizing props with
    | nil => simp only [insert_nested_nil]
    | cons s rest ih =>
      cases rest with
      | nil =>
        rw [insert_nested_single, insert_nested_single, insert_nested_single,
          insertAL_insertAL]
      | cons r rs =>
        cases hk : getAL props s with
        | none =>
          rw [insert_nested_absent props s r rs v1 hk]
          rw [insert_nested_into_container _ s r rs v2 _
            (getAL_insertAL_self props s _)]
          rw [ih, insertAL_insertAL]
          rw [insert_nested_absent props s r rs v2 hk]
        | some entry =>
          cases entry with
          | obj o =>
            cases hp : getAL o "properties" with
            | none =>
              rw [insert_nested_props_none props s r rs v1 o hk hp]
              rw [insertAL_of_not_contains _ (getAL_eq_none.mp hp)]
              rw [insert_nested_props_obj _ s r rs v2
                (o ++ [("properties",
                  Json.obj (insert_nested_property [] (r :: rs) v1))])
                (insert_nested_property [] (r :: rs) v1)
                (getAL_insertAL_self props s _)
                (by rw [getAL_append_of_not_contains _ (getAL_eq_none.mp hp)]
                    simp [getAL])]
              rw [ih]
              simp only [insertAL_insertAL]
              rw [insertAL_append_last _ _ (getAL_eq_none.mp hp)]
              rw [insert_nested_props_none props s r rs v2 o hk hp]
              rw [insertAL_of_not_contains _ (getAL_eq_none.mp hp)]
            | some pv =>
              cases pv with
              | obj pm =>
                rw [insert_nested_props_obj props s r rs v1 o pm hk hp]
                rw [insert_nested_props_obj _ s r rs v2
                  (insertAL o "properties"
                    (Json.obj (insert_nested_property pm (r :: rs) v1)))
                  (insert_nested_property pm (r :: rs) v1)
                  (getAL_insertAL_self props s _)
                  (getAL_insertAL_self o "properties" _)]
                rw [ih]
                simp only [insertAL_insertAL]
                rw [insert_nested_props_obj props s r rs v2 o pm hk hp]
              | null =>
                rw [insert_nested_props_nonobj props s r rs v1 o _ hk hp rfl]
              | bool b =>
                rw [insert_nested_props_nonobj props s r rs v1 o _ hk hp rfl]
              | num n =>
                rw [insert_nested_props_nonobj props s r rs v1 o _ hk hp rfl]
              | str t =>
                rw [insert_nested_props_nonobj props s r rs v1 o _ hk hp rfl]
              | arr l =>
                rw [insert_nested_props_nonobj props s r rs v1 o _ hk hp rfl]
          | null => rw [insert_nested_obstructed props s r rs v1 _ hk rfl]
          | bool b => rw [insert_nested_obstructed props s r rs v1 _ hk rfl]
          | num n => rw [insert_nested_obstructed props s r rs v1 _ hk rfl]
          | str t => rw [insert_nested_obstructed props s r rs v1 _ hk rfl]
          | arr l => rw [insert_nested_obstructed props s r rs v1 _ hk rfl]
  · intro props s v
    rw [insert_nested_single]
    exact getAL_insertAL_self _ _ _

/-- C10: when a key's path has at least two remaining segments and the
current container's slot for the first segment holds a non-object value,
the insertion leaves the tree entirely unchanged: the deeper entry is
dropped without error and without overwriting the existing value. -/
theorem c10_obstructed_insert_drops (props : List (String × Json))
    (s r : String) (rs : List String) (leaf entry : Json)
    (hk : getAL props s = some entry) (hne : Json.isObjB entry = false) :
    insert_nested_property props (s :: r :: rs) leaf = props := by
  cases entry with
  | obj o => simp [Json.isObjB] at hne
  | null => simp [insert_nested_property, hk]
  | bool b => simp [insert_nested_property, hk]
  | num n => simp [insert_nested_property, hk]
  | str t => simp [insert_nested_property, hk]
  | arr l => simp [insert_nested_property, hk]

/-- Witness for C10: a scalar leaf written by the earlier shorter key
`a` blocks the deeper key `a.b`. -/
theorem c10_obstructed_insert_drops_witness :
    getAL [("a", Json.null)] "a" = some Json.null ∧
    Json.isObjB Json.null = false ∧
    insert_nested_property [("a", Json.null)] ["a", "b"] Json.null =
      [("a", Json.null)] :=
  ⟨rfl, rfl, c10_obstructed_insert_drops _ _ _ _ _ _ rfl rfl⟩

/-- C9: the literal scenario: the flat input with the single key
`haskell.plugin.eval.globalOn` converts to the fully nested schema whose
sole leaf keeps `default` and `type`, drops `scope`, and carries the
`description` text under `markdownDescription` (the claim compares
objects up to key order; this equality fixes the construction order of
the code, which is one such order). -/
theorem c9_literal_scenario :
    convert_to_zed_schema (Json.obj [("haskell.plugin.eval.globalOn",
      Json.obj [("default", Json.bool true),
                ("description", Json.str "Enables eval plugin"),
                ("scope", Json.str "resource"),
                ("type", Json.str "boolean")])]) =
    Json.obj [("type", Json.str "object"), ("properties", Json.obj
      [("plugin", Json.obj [("type", Json.str "object"), ("properties", Json.obj
        [("eval", Json.obj [("type", Json.str "object"), ("properties", Json.obj
          [("globalOn", Json.obj
            [("markdownDescription", Json.str "Enables eval plugin"),
             ("default", Json.bool true),
             ("type", Json.str "boolean")])])])])])])] := rfl

/-! ### Support lemmas for the structural-completeness claims -/

theorem propPre_cons_same (x : String) (a b : List String) :
    propPre (x :: a) (x :: b) = propPre a b := by
  simp [propPre]

theorem propPre_single_true (s : String) (r : String) (rs : List String) :
    propPre [s] (s :: r :: rs) = true := by
  simp [propPre]

theorem propPre_nil_cons (r : String) (rs : List String) :
    propPre [] (r :: rs) = true := rfl

theorem leafPathsOf_append (m1 m2 : List (String × Json)) :
    leafPathsOf (m1 ++ m2) = leafPathsOf m1 ++ leafPathsOf m2 := by
  induction m1 with
  | nil => simp [leafPathsOf]
  | cons kv rest ih =>
    rcases kv with ⟨k, v⟩
    simp [leafPathsOf, ih]

theorem leafPathsOf_cons (k : String) (v : Json) (rest : List (String × Json)) :
    leafPathsOf ((k, v) :: rest) = leafEntryPaths k v ++ leafPathsOf rest := rfl

theorem leafEntryPaths_shape {q : List String} {k : String} {v : Json}
    (h : q ∈ leafEntryPaths k v) : ∃ t, q = k :: t := by
  cases hce : containerProps v with
  | some pm =>
    rw [leafEntryPaths_container k hce] at h
    rcases List.mem_map.mp h with ⟨q', _, rfl⟩
    exact ⟨q', rfl⟩
  | none =>
    rw [leafEntryPaths_leaf k hce] at h
    simp at h
    exact ⟨[], h⟩

theorem mem_leafPathsOf_iff {q : List String} {m : List (String × Json)} :
    q ∈ leafPathsOf m ↔ ∃ k v, (k, v) ∈ m ∧ q ∈ leafEntryPaths k v := by
  induction m with
  | nil => simp [leafPathsOf]
  | cons kv rest ih =>
    rcases kv with ⟨a, w⟩
    rw [leafPathsOf_cons]
    simp only [List.mem_append, ih, List.mem_cons, Prod.mk.injEq]
    constructor
    · rintro (h | ⟨k, v, hm, hq⟩)
      · exact ⟨a, w, Or.inl ⟨rfl, rfl⟩, h⟩
      · exact ⟨k, v, Or.inr hm, hq⟩
    · rintro ⟨k, v, ⟨rfl, rfl⟩ | hm, hq⟩
      · exact Or.inl hq
      · exact Or.inr ⟨k, v, hm, hq⟩

theorem leafPaths_ne_nil {q : List String} {m : List (String × Json)}
    (h : q ∈ leafPathsOf m) : q ≠ [] := by
  rcases mem_leafPathsOf_iff.mp h with ⟨k, v, _, hq⟩
  rcases leafEntryPaths_shape hq with ⟨t, rfl⟩
  simp

theorem getAL_split {m : List (String × Json)} {s : String} {entry : Json}
    (h : getAL m s = some entry) :
    ∃ m1 m2, m = m1 ++ (s, entry) :: m2 ∧ containsKey m1 s = false ∧
      ∀ val, insertAL m s val = m1 ++ (s, val) :: m2 := by
  induction m with
  | nil => simp [getAL] at h
  | cons kv rest ih =>
    rcases kv with ⟨a, w⟩
    by_cases ha : a = s
    · subst ha
      simp [getAL] at h
      subst h
      refine ⟨[], rest, rfl, rfl, ?_⟩
      intro val
      simp [insertAL]
    · simp [getAL, ha] at h
      rcases ih h with ⟨m1, m2, hm, hc, hins⟩
      refine ⟨(a, w) :: m1, m2, by rw [hm]; rfl, by simp [ha, hc], ?_⟩
      intro val
      simp [insertAL, ha, hins val]

theorem sizeOf_lt_of_containerProps {v : Json} {m : List (String × Json)}
    (h : containerProps v = some m) : sizeOf m < sizeOf v := by
  have hv := containerProps_eq_some h
  subst hv
  simp
  omega

theorem wf_cons_iff (k : String) (v : Json) (rest : List (String × Json)) :
    wfKeysB ((k, v) :: rest) = true ↔
      containsKey rest k = false ∧ wfEntryB v = true ∧ wfKeysB rest = true := by
  rw [wfKeysB]
  simp
  tauto

theorem wf_append_leaf {m : List (String × Json)} {s : String} {val : Json}
    (hwf : wfKeysB m = true) (hc : containsKey m s = false)
    (hv : wfEntryB val = true) : wfKeysB (m ++ [(s, val)]) = true := by
  induction m with
  | nil => simp [wf_cons_iff, hv, wfKeysB]
  | cons kv rest ih =>
    rcases kv with ⟨a, w⟩
    rw [wf_cons_iff] at hwf
    simp at hc
    rw [List.cons_append, wf_cons_iff]
    refine ⟨?_, hwf.2.1, ih hwf.2.2 hc.2⟩
    rw [containsKey_append]
    simp [hwf.1]
    intro hcon
    exact absurd hcon.symm hc.1

theorem wf_replace {m1 m2 : List (String × Json)} {x : String} {a : Json}
    (b : Json) (hwf : wfKeysB (m1 ++ (x, a) :: m2) = true)
    (hb : wfEntryB b = true) : wfKeysB (m1 ++ (x, b) :: m2) = true := by
  induction m1 with
  | nil =>
    rw [List.nil_append, wf_cons_iff] at hwf ⊢
    exact ⟨hwf.1, hb, hwf.2.2⟩
  | cons kv rest ih =>
    rcases kv with ⟨k, w⟩
    rw [List.cons_append, wf_cons_iff] at hwf ⊢
    refine ⟨?_, hwf.2.1, ih hwf.2.2⟩
    have := hwf.1
    rw [containsKey_append] at this ⊢
    simpa using this

theorem wf_extract_entry {m1 m2 : List (String × Json)} {x : String} {a : Json}
    (hwf : wfKeysB (m1 ++ (x, a) :: m2) = true) : wfEntryB a = true := by
  induction m1 with
  | nil =>
    rw [List.nil_append, wf_cons_iff] at hwf
    exact hwf.2.1
  | cons kv rest ih =>
    rcases kv with ⟨k, w⟩
    rw [List.cons_append, wf_cons_iff] at hwf
    exact ih hwf.2.2

theorem getAL_of_mem_wf {m : List (String × Json)} {k : String} {v : Json}
    (hwf : wfKeysB m = true) (hm : (k, v) ∈ m) : getAL m k = some v := by
  induction m with
  | nil => simp at hm
  | cons kv rest ih =>
    rcases kv with ⟨a, w⟩
    rw [wf_cons_iff] at hwf
    simp only [List.mem_cons, Prod.mk.injEq] at hm
    rcases hm with ⟨rfl, rfl⟩ | hm
    · simp [getAL]
    · have hak : a ≠ k := by
        intro hcon
        subst hcon
        exact absurd (mem_containsKey hm) (by simp [hwf.1])
      simp [getAL, hak, ih hwf.2.2 hm]

theorem wf_child {m : List (String × Json)} {k : String} {v : Json}
    (hwf : wfKeysB m = true) (hm : (k, v) ∈ m) : wfEntryB v = true := by
  induction m with
  | nil => simp at hm
  | cons kv rest ih =>
    rcases kv with ⟨a, w⟩
    rw [wf_cons_iff] at hwf
    simp only [List.mem_cons, Prod.mk.injEq] at hm
    rcases hm with ⟨rfl, rfl⟩ | hm
    · exact hwf.2.1
    · exact ih hwf.2.2 hm

theorem containerProps_mkContainer (pm : List (String × Json)) :
    containerProps (mkContainer pm) = some pm := rfl

theorem wfEntryB_mkContainer (pm : List (String × Json)) :
    wfEntryB (mkContainer pm) = wfKeysB pm := rfl

theorem leafEntryPaths_mkContainer (k : String) (pm : List (String × Json)) :
    leafEntryPaths k (mkContainer pm) =
      (leafPathsOf pm).map (fun q => k :: q) := rfl

/-- The key insertion lemma: inserting a leaf that does not normalize to
a container shape, at a non-empty path separated from every existing
leaf path, adds exactly that path to the leaf-path set and preserves
well-formedness of the tree. -/
theorem insert_nested_spec (p : List String) (v : Json)
    (hleaf : containerProps (convert_leaf_schema v) = none) :
    ∀ m : List (String × Json), p ≠ [] →
      (∀ q, q ∈ leafPathsOf m → propPre q p = false ∧ propPre p q = false) →
      ((∀ q, q ∈ leafPathsOf (insert_nested_property m p v) ↔
          (q ∈ leafPathsOf m ∨ q = p)) ∧
        (wfKeysB m = true → wfKeysB (insert_nested_property m p v) = true)) := by
  induction p with
  | nil => intro m hne _; exact absurd rfl hne
  | cons s rest ih =>
    intro m _ hsep
    cases rest with
    | nil =>
      rw [insert_nested_single]
      cases hk : getAL m s with
      | none =>
        rw [insertAL_of_not_contains _ (getAL_eq_none.mp hk)]
        constructor
        · intro q
          rw [leafPathsOf_append, leafPathsOf_cons, leafEntryPaths_leaf _ hleaf]
          simp [leafPathsOf]
        · intro hwf
          exact wf_append_leaf hwf (getAL_eq_none.mp hk) (wfEntryB_leaf hleaf)
      | some entry =>
        obtain ⟨m1, m2, hm, hc1, hins⟩ := getAL_split hk
        rw [hins]
        subst hm
        constructor
        · intro q
          rw [leafPathsOf_append, leafPathsOf_append, leafPathsOf_cons,
            leafPathsOf_cons, leafEntryPaths_leaf _ hleaf]
          cases hce : containerProps entry with
          | none =>
            rw [leafEntryPaths_leaf _ hce]
            simp
            tauto
          | some pm =>
            rw [leafEntryPaths_container _ hce]
            have hemp : leafPathsOf pm = [] := by
              by_contra hne'
              obtain ⟨q', hq'⟩ := List.exists_mem_of_ne_nil _ hne'
              have hmem : (s :: q') ∈ leafPathsOf (m1 ++ (s, entry) :: m2) := by
                rw [leafPathsOf_append, leafPathsOf_cons,
                  leafEntryPaths_container _ hce]
                simp
                exact Or.inr (Or.inl hq')
              have h2 := (hsep _ hmem).2
              have hq'nil : q' ≠ [] := leafPaths_ne_nil hq'
              rw [propPre_cons_same] at h2
              cases q' with
              | nil => exact absurd rfl hq'nil
              | cons x xs => simp [propPre_nil_cons] at h2
            rw [hemp]
            simp
            tauto
        · intro hwf
          exact wf_replace _ hwf (wfEntryB_leaf hleaf)
    | cons r rs =>
      cases hk : getAL m s with
      | none =>
        have hrec := ih [] (by simp) (by simp [leafPathsOf])
        rw [insert_nested_absent m s r rs v hk,
          insertAL_of_not_contains _ (getAL_eq_none.mp hk)]
        constructor
        · intro q
          rw [leafPathsOf_append, leafPathsOf_cons, leafEntryPaths_mkContainer]
          simp only [leafPathsOf, List.append_nil, List.mem_append, List.mem_map]
          constructor
          · rintro (hq | ⟨q', hq', rfl⟩)
            · exact Or.inl hq
            · rcases (hrec.1 q').mp hq' with h | rfl
              · simp [leafPathsOf] at h
              · exact Or.inr rfl
          · rintro (hq | rfl)
            · exact Or.inl hq
            · refine Or.inr ⟨r :: rs, ?_, rfl⟩
              exact (hrec.1 _).mpr (Or.inr rfl)
        · intro hwf
          refine wf_append_leaf hwf (getAL_eq_none.mp hk) ?_
          rw [wfEntryB_mkContainer]
          exact hrec.2 rfl
      | some entry =>
        cases hce : containerProps entry with
        | none =>
          exfalso
          obtain ⟨m1, m2, hm, hc1, hins⟩ := getAL_split hk
          have hmem : [s] ∈ leafPathsOf m := by
            rw [hm, leafPathsOf_append, leafPathsOf_cons,
              leafEntryPaths_leaf _ hce]
            simp
          have h1 := (hsep _ hmem).1
          rw [propPre_single_true] at h1
          exact absurd h1 (by simp)
        | some pm =>
          have hentry : entry = mkContainer pm := containerProps_eq_some hce
          rw [insert_nested_into_container m s r rs v pm (by rw [hk, hentry])]
          obtain ⟨m1, m2, hm, hc1, hins⟩ := getAL_split hk
          rw [hins]
          subst hm
          have hsep' : ∀ q', q' ∈ leafPathsOf pm →
              propPre q' (r :: rs) = false ∧ propPre (r :: rs) q' = false := by
            intro q' hq'
            have hmem : (s :: q') ∈ leafPathsOf (m1 ++ (s, entry) :: m2) := by
              rw [leafPathsOf_append, leafPathsOf_cons,
                leafEntryPaths_container _ hce]
              simp
              exact Or.inr (Or.inl hq')
            have h2 := hsep _ hmem
            constructor
            · have := h2.1
              rwa [propPre_cons_same] at this
            · have := h2.2
              rwa [propPre_cons_same] at this
          have hrec := ih pm (by simp) hsep'
          constructor
          · intro q
            rw [leafPathsOf_append, leafPathsOf_append, leafPathsOf_cons,
              leafPathsOf_cons, leafEntryPaths_container _ hce,
              leafEntryPaths_mkContainer]
            simp only [List.mem_append, List.mem_map]
            constructor
            · rintro (hq | (⟨q', hq', rfl⟩ | hq))
              · exact Or.inl (Or.inl hq)
              · rcases (hrec.1 q').mp hq' with h | rfl
                · exact Or.inl (Or.inr (Or.inl ⟨q', h, rfl⟩))
                · exact Or.inr rfl
              · exact Or.inl (Or.inr (Or.inr hq))
            · rintro ((hq | (⟨q', hq', rfl⟩ | hq)) | rfl)
              · exact Or.inl hq
              · exact Or.inr (Or.inl ⟨q', (hrec.1 q').mpr (Or.inl hq'), rfl⟩)
              · exact Or.inr (Or.inr hq)
              · exact Or.inr (Or.inl ⟨r :: rs, (hrec.1 _).mpr (Or.inr rfl), rfl⟩)
          · intro hwf
            have hwfpm : wfKeysB pm = true := by
              have := wf_extract_entry hwf
              rwa [wfEntryB_container hce] at this
            refine wf_replace _ hwf ?_
            rw [wfEntryB_mkContainer]
            exact hrec.2 hwfpm

theorem leafPaths_nodup_aux :
    ∀ (n : Nat) (m : List (String × Json)), sizeOf m ≤ n →
      wfKeysB m = true → (leafPathsOf m).Nodup := by
  intro n
  induction n with
  | zero =>
    intro m hsize _
    cases m with
    | nil => simp [leafPathsOf]
    | cons kv rest =>
      simp only [List.cons.sizeOf_spec] at hsize
      omega
  | succ n ihn =>
    intro m hsize hwf
    cases m with
    | nil => simp [leafPathsOf]
    | cons kv rest =>
      rcases kv with ⟨k, v⟩
      rw [wf_cons_iff] at hwf
      rw [leafPathsOf_cons]
      simp only [List.cons.sizeOf_spec, Prod.mk.sizeOf_spec] at hsize
      have hsr : sizeOf rest ≤ n := by omega
      refine List.Nodup.append ?_ (ihn rest hsr hwf.2.2) ?_
      · cases hce : containerProps v with
        | none =>
          rw [leafEntryPaths_leaf _ hce]
          simp
        | some pm =>
          rw [leafEntryPaths_container _ hce]
          have hlt := sizeOf_lt_of_containerProps hce
          refine List.Nodup.map ?_ (ihn pm (by omega) ?_)
          · intro a b hab
            simpa using hab
          · have := hwf.2.1
            rwa [wfEntryB_container hce] at this
      · intro q hq1 hq2
        rcases leafEntryPaths_shape hq1 with ⟨t, rfl⟩
        rcases mem_leafPathsOf_iff.mp hq2 with ⟨k', v', hm', hq'⟩
        rcases leafEntryPaths_shape hq' with ⟨t', heq⟩
        have hk' : k = k' := by
          injection heq
        subst hk'
        exact absurd (mem_containsKey hm') (by simp [hwf.1])

/-- In a well-formed tree, the leaf paths are pairwise distinct. -/
theorem leafPaths_nodup {m : List (String × Json)}
    (hwf : wfKeysB m = true) : (leafPathsOf m).Nodup :=
  leafPaths_nodup_aux (sizeOf m) m le_rfl hwf

/-- In a well-formed tree no path is simultaneously a leaf path and a
container position. -/
theorem containerAt_not_leaf :
    ∀ (p : List String) (m : List (String × Json)), wfKeysB m = true →
      p ∈ leafPathsOf m → containerAtB m p = false := by
  intro p
  induction p with
  | nil => intro m _ hp; exact absurd rfl (leafPaths_ne_nil hp)
  | cons s rest ih =>
    intro m hwf hp
    rcases mem_leafPathsOf_iff.mp hp with ⟨k, v, hm, hq⟩
    rcases leafEntryPaths_shape hq with ⟨t, heq⟩
    injection heq with h1 h2
    subst h1
    subst h2
    have hget : getAL m s = some v := getAL_of_mem_wf hwf hm
    show containerAtB m (s :: rest) = false
    cases hce : containerProps v with
    | none => simp only [containerAtB, hget, hce]
    | some pm =>
      simp only [containerAtB, hget, hce]
      rw [leafEntryPaths_container _ hce] at hq
      rcases List.mem_map.mp hq with ⟨q', hq', heq'⟩
      have hq'rest : q' = rest := by injection heq'
      subst hq'rest
      have hwfpm : wfKeysB pm = true := by
        have := wf_child hwf hm
        rwa [wfEntryB_container hce] at this
      exact ih pm hwfpm hq'

/-! ### The key-loop fold -/

theorem buildStep_eq (m : List (String × Json)) (kv : String × Json) :
    buildStep m kv =
      match remainingPath kv.1 with
      | none => m
      | some p => insert_nested_property m p kv.2 := by
  unfold buildStep remainingPath
  cases splitDot kv.1 with
  | nil => rfl
  | cons a rest => cases rest <;> rfl

theorem remainingPath_ne_nil {key : String} {p : List String}
    (h : remainingPath key = some p) : p ≠ [] := by
  unfold remainingPath at h
  revert h
  cases splitDot key with
  | nil => intro h; simp at h
  | cons a rest =>
    cases rest with
    | nil => intro h; simp at h
    | cons b bs =>
      intro h
      simp at h
      subst h
      simp

theorem inputPaths_cons (kv : String × Json) (xs : List (String × Json)) :
    inputPaths (kv :: xs) =
      match remainingPath kv.1 with
      | none => inputPaths xs
      | some p => p :: inputPaths xs := by
  unfold inputPaths
  rw [List.filterMap_cons]
  cases remainingPath kv.1 <;> rfl

theorem build_fold_spec :
    ∀ (xs : List (String × Json)) (m : List (String × Json)),
      (∀ q p', q ∈ leafPathsOf m → p' ∈ inputPaths xs →
        propPre q p' = false ∧ propPre p' q = false) →
      pathsOkB (inputPaths xs) = true →
      (∀ kv, kv ∈ xs → containerProps (convert_leaf_schema kv.2) = none) →
      ((∀ q, q ∈ leafPathsOf (List.foldl buildStep m xs) ↔
          (q ∈ leafPathsOf m ∨ q ∈ inputPaths xs)) ∧
        (wfKeysB m = true → wfKeysB (List.foldl buildStep m xs) = true)) := by
  intro xs
  induction xs with
  | nil =>
    intro m _ _ _
    constructor
    · intro q
      simp [inputPaths]
    · intro h
      simpa using h
  | cons kv rest ihx =>
    intro m hsep hpaths hleaves
    rw [List.foldl_cons, buildStep_eq]
    cases hrp : remainingPath kv.1 with
    | none =>
      have hip : inputPaths (kv :: rest) = inputPaths rest := by
        rw [inputPaths_cons, hrp]
      simp only [hrp]
      rw [hip] at hsep hpaths
      rw [hip]
      exact ihx m hsep hpaths
        (fun kv' hkv' => hleaves kv' (List.mem_cons_of_mem _ hkv'))
    | some p =>
      have hip : inputPaths (kv :: rest) = p :: inputPaths rest := by
        rw [inputPaths_cons, hrp]
      simp only [hrp]
      rw [hip] at hsep hpaths
      rw [hip]
      have hpne := remainingPath_ne_nil hrp
      have hsep0 : ∀ q, q ∈ leafPathsOf m →
          propPre q p = false ∧ propPre p q = false :=
        fun q hq => hsep q p hq (List.mem_cons_self _ _)
      have hins := insert_nested_spec p kv.2
        (hleaves kv (List.mem_cons_self _ _)) m hpne hsep0
      rw [pathsOkB] at hpaths
      simp only [Bool.and_eq_true, List.all_eq_true] at hpaths
      have hsepP : ∀ p', p' ∈ inputPaths rest →
          propPre p p' = false ∧ propPre p' p = false := by
        intro p' hp'
        have := hpaths.1 p' hp'
        simp [sepOkB] at this
        exact this
      have hsep' : ∀ q p', q ∈ leafPathsOf (insert_nested_property m p kv.2) →
          p' ∈ inputPaths rest → propPre q p' = false ∧ propPre p' q = false := by
        intro q p' hq hp'
        rcases (hins.1 q).mp hq with hold | rfl
        · exact hsep q p' hold (List.mem_cons_of_mem _ hp')
        · exact hsepP p' hp'
      have hmain := ihx (insert_nested_property m p kv.2) hsep' hpaths.2
        (fun kv' hkv' => hleaves kv' (List.mem_cons_of_mem _ hkv'))
      constructor
      · intro q
        rw [hmain.1 q, hins.1 q]
        simp only [List.mem_cons]
        tauto
      · intro hwf
        exact hmain.2 (hins.2 hwf)

theorem leavesOkB_spec {xs : List (String × Json)} (hl : leavesOkB xs = true) :
    ∀ kv, kv ∈ xs → containerProps (convert_leaf_schema kv.2) = none := by
  intro kv hkv
  unfold leavesOkB at hl
  rw [List.all_eq_true] at hl
  have := hl kv hkv
  simpa [Option.isNone_iff_eq_none] using this

/-- The number of occurrences of a path in a list of paths. -/
def countPath (l : List (List String)) (p : List String) : Nat :=
  (l.filter (fun q => q = p)).length

theorem countPath_eq_one {l : List (List String)} {p : List String}
    (hn : l.Nodup) (hm : p ∈ l) : countPath l p = 1 := by
  induction l with
  | nil => simp at hm
  | cons a rest ih =>
    rw [List.nodup_cons] at hn
    rcases List.mem_cons.mp hm with rfl | hm'
    · have hz : (rest.filter (fun q => decide (q = p))).length = 0 := by
        rw [List.length_eq_zero, List.filter_eq_nil_iff]
        intro q hq
        simp
        rintro rfl
        exact hn.1 hq
      rw [countPath, List.filter_cons]
      simp [hz]
    · have hap : a ≠ p := by
        rintro rfl
        exact hn.1 hm'
      rw [countPath, List.filter_cons]
      simp [hap]
      rw [countPath] at ih
      exact ih hn.2 hm'

/-! ### Claims about the whole conversion's structure -/

/-- Counterexample to C1 as stated: with the flat keys `h.a` and
`h.a.b` (in processing order), the path `a.b` is present in the input
after prefix removal, but the scalar leaf stored earlier at `a` blocks
the deeper insertion, so no leaf is reachable at `a.b` in the output
tree: the two path sets differ. -/
theorem c1_structural_completeness_counterexample :
    ["a", "b"] ∈ inputPaths [("h.a", Json.null), ("h.a.b", Json.null)] ∧
    ["a", "b"] ∉ leafPathsOf (buildRootProperties
      [("h.a", Json.null), ("h.a.b", Json.null)]) := by
  constructor
  · decide
  · decide

/-- C1 (amended): for flat inputs whose remaining paths are pairwise
free of proper-prefix relations and whose values never normalize to a
container-shaped object, the set of remaining paths (after dropping each
key's first segment and skipping empty remainders) equals exactly the
set of paths reachable by walking the output tree from the root
container to each leaf. -/
theorem c1_structural_completeness (xs : List (String × Json))
    (hp : pathsOkB (inputPaths xs) = true) (hl : leavesOkB xs = true) :
    convert_to_zed_schema (Json.obj xs) =
      Json.obj [("type", Json.str "object"),
        ("properties", Json.obj (buildRootProperties xs))] ∧
    (∀ q, q ∈ leafPathsOf (buildRootProperties xs) ↔ q ∈ inputPaths xs) := by
  refine ⟨rfl, ?_⟩
  have h := build_fold_spec xs []
    (by intro q p' hq; simp [leafPathsOf] at hq) hp (leavesOkB_spec hl)
  intro q
  have hq : q ∈ leafPathsOf (buildRootProperties xs) ↔
      q ∈ leafPathsOf [] ∨ q ∈ inputPaths xs := h.1 q
  rw [hq]
  simp [leafPathsOf]

/-- Witness for C1 (amended) at a concrete prefix-free flat input. -/
theorem c1_structural_completeness_witness :
    pathsOkB (inputPaths [("haskell.plugin.eval", Json.obj
      [("default", Json.bool true)]), ("haskell.other", Json.null)]) = true ∧
    leavesOkB [("haskell.plugin.eval", Json.obj
      [("default", Json.bool true)]), ("haskell.other", Json.null)] = true ∧
    (["plugin", "eval"] ∈ leafPathsOf (buildRootProperties
      [("haskell.plugin.eval", Json.obj [("default", Json.bool true)]),
        ("haskell.other", Json.null)]) ↔
      ["plugin", "eval"] ∈ inputPaths [("haskell.plugin.eval", Json.obj
        [("default", Json.bool true)]), ("haskell.other", Json.null)]) :=
  ⟨rfl, rfl,
    (c1_structural_completeness [("haskell.plugin.eval", Json.obj
      [("default", Json.bool true)]), ("haskell.other", Json.null)]
      rfl rfl).2 ["plugin", "eval"]⟩

/-- Counterexample to C2 as stated: with the flat keys `h.a` (an
object-shaped descriptor) and `h.a.b`, the builder grafts a `properties`
child into the leaf object stored at `a`, so the node at `a` carries
both leaf metadata (`default`) and children — it is not the fixed
container shape — and the input path `a.b` reaches no leaf at all. -/
theorem c2_unique_leaf_paths_counterexample :
    getAL (buildRootProperties [("h.a", Json.obj [("default", Json.bool true)]),
      ("h.a.b", Json.bool true)]) "a" =
      some (Json.obj [("default", Json.bool true),
        ("properties", Json.obj [("b", Json.bool true)])]) ∧
    ["a", "b"] ∈ inputPaths [("h.a", Json.obj [("default", Json.bool true)]),
      ("h.a.b", Json.bool true)] ∧
    ["a", "b"] ∉ leafPathsOf (buildRootProperties
      [("h.a", Json.obj [("default", Json.bool true)]),
        ("h.a.b", Json.bool true)]) :=
  ⟨rfl, by decide, by decide⟩

/-- C2 (amended): for flat inputs whose remaining paths are pairwise
free of proper-prefix relations and whose values never normalize to a
container-shaped object, every remaining path maps to exactly one leaf
of the output tree (its leaf-path occurs exactly once), and no such path
is simultaneously a container position: walked through exact container
nodes it ends at a leaf, never at a container. -/
theorem c2_unique_leaf_paths (xs : List (String × Json))
    (hp : pathsOkB (inputPaths xs) = true) (hl : leavesOkB xs = true) :
    ∀ p, p ∈ inputPaths xs →
      (countPath (leafPathsOf (buildRootProperties xs)) p = 1 ∧
        containerAtB (buildRootProperties xs) p = false) := by
  intro p hpin
  have h := build_fold_spec xs []
    (by intro q p' hq; simp [leafPathsOf] at hq) hp (leavesOkB_spec hl)
  have hwf : wfKeysB (buildRootProperties xs) = true := h.2 rfl
  have hmem : p ∈ leafPathsOf (buildRootProperties xs) :=
    (h.1 p).mpr (Or.inr hpin)
  exact ⟨countPath_eq_one (leafPaths_nodup hwf) hmem,
    containerAt_not_leaf p _ hwf hmem⟩

/-- Witness for C2 (amended) at a concrete prefix-free flat input. -/
theorem c2_unique_leaf_paths_witness :
    pathsOkB (inputPaths [("haskell.plugin.diff", Json.obj
      [("type", Json.str "boolean")]), ("haskell.top", Json.num 3)]) = true ∧
    leavesOkB [("haskell.plugin.diff", Json.obj
      [("type", Json.str "boolean")]), ("haskell.top", Json.num 3)] = true ∧
    ["top"] ∈ inputPaths [("haskell.plugin.diff", Json.obj
      [("type", Json.str "boolean")]), ("haskell.top", Json.num 3)] ∧
    (countPath (leafPathsOf (buildRootProperties
      [("haskell.plugin.diff", Json.obj [("type", Json.str "boolean")]),
        ("haskell.top", Json.num 3)])) ["top"] = 1 ∧
      containerAtB (buildRootProperties [("haskell.plugin.diff", Json.obj
        [("type", Json.str "boolean")]), ("haskell.top", Json.num 3)])
        ["top"] = false) :=
  ⟨rfl, rfl, by decide,
    c2_unique_leaf_paths [("haskell.plugin.diff", Json.obj
      [("type", Json.str "boolean")]), ("haskell.top", Json.num 3)]
      rfl rfl ["top"] (by decide)⟩

end HaskellSchema
